import Mathlib

/-!
Verification development for the libcoap engine excerpt.

The address layer below is a shallow embedding of the inline functions of
`include/coap3/coap_address.h` (the default, non-LwIP/non-Contiki build,
plus the LwIP/Contiki build where noted).  The message codec, reliability
tracker, deduplication table and exchange lifecycle are modelled from the
specification, since their implementation files are not part of the
excerpt.
-/

set_option maxHeartbeats 1000000

namespace LibCoap

/-! ### Address layer (from `include/coap3/coap_address.h`) -/

/-- `AF_INET` socket family constant (Linux value). -/
def AF_INET : Nat := 2

/-- `AF_INET6` socket family constant (Linux value). -/
def AF_INET6 : Nat := 10

/-- `AF_UNIX` socket family constant (Linux value). -/
def AF_UNIX : Nat := 1

/-- `INADDR_ANY`: the IPv4 wildcard address. -/
def INADDR_ANY : Nat := 0

/-- `in6addr_any`: the IPv6 wildcard address, sixteen zero bytes. -/
def in6addr_any : List Nat := List.replicate 16 0

/-- The `union` stored inside `coap_address_t` (default build).  Each
constructor is one view of the union, tagged by its `sa_family` value:
`sin` is `struct sockaddr_in` (family `AF_INET`), `sin6` is
`struct sockaddr_in6` (family `AF_INET6`, with `sin6_addr` as its sixteen
bytes), `cun` is `struct coap_sockaddr_un` (family `AF_UNIX`), and `raw`
stands for a stored `sockaddr` of any family other than `AF_INET`,
`AF_INET6` and `AF_UNIX` (the `default:` branch of the switches below),
carried as its family value and remaining bytes. -/
inductive SockAddr where
  | sin (sin_port : Nat) (sin_addr : Nat)
  | sin6 (sin6_port : Nat) (sin6_flowinfo : Nat) (sin6_addr : List Nat) (sin6_scope_id : Nat)
  | cun (sun_path : List Nat)
  | raw (family : Nat) (bytes : List Nat)
  deriving DecidableEq

/-- The `sa_family` field common to every view of the union. -/
def SockAddr.sa_family : SockAddr → Nat
  | .sin _ _ => AF_INET
  | .sin6 _ _ _ _ => AF_INET6
  | .cun _ => AF_UNIX
  | .raw f _ => f

/-- `coap_address_t` of the default build: the stored size together with
the `sockaddr` union. -/
structure CoapAddress where
  size : Nat
  addr : SockAddr
  deriving DecidableEq

/-- Result of a C function guarded by `assert`: either a value, or an
assertion violation (the argument was `NULL`). -/
inductive CResult (α : Type) where
  | ok : α → CResult α
  | assertViolation : CResult α
  deriving DecidableEq

/-- `coap_address_copy` (default build).  The C code first zeroes `dst`
(`memset(dst, 0, sizeof(coap_address_t))`), copies `size`, and then for
`AF_INET6` copies only `sin6_family`, `sin6_addr`, `sin6_port` and
`sin6_scope_id` — leaving `sin6_flowinfo` at the zero written by `memset`;
for `AF_INET` it assigns the whole `sockaddr_in`; otherwise it copies the
`src->size` bytes of the union, which covers the stored member whole. -/
def coap_address_copy (src : CoapAddress) : CoapAddress :=
  match src.addr with
  | .sin6 port _flow ab scope => ⟨src.size, .sin6 port 0 ab scope⟩
  | .sin port a => ⟨src.size, .sin port a⟩
  | other => ⟨src.size, other⟩

/-- `_coap_address_isany_impl` (default build): switch on `sa_family`;
`AF_INET` compares `sin_addr.s_addr` with `INADDR_ANY`, `AF_INET6`
compares the sixteen address bytes with `in6addr_any`, every other family
falls through to `return 0`. -/
def coap_address_isany_impl (a : CoapAddress) : Nat :=
  match a.addr with
  | .sin _ s_addr => if s_addr = INADDR_ANY then 1 else 0
  | .sin6 _ _ ab _ => if ab = in6addr_any then 1 else 0
  | .cun _ => 0
  | .raw _ _ => 0

/-- `coap_address_isany` (default build): `assert(a)` then delegate to
`_coap_address_isany_impl`.  A `NULL` argument is an assertion
violation. -/
def coap_address_isany (a : Option CoapAddress) : CResult Nat :=
  match a with
  | none => .assertViolation
  | some x => .ok (coap_address_isany_impl x)

end LibCoap

namespace LibCoap.Embedded

/-! ### Address layer, LwIP/Contiki build

On the embedded builds `coap_address_t` is a port together with an
opaque stack-supplied IP address; the predicates delegate to the external
IP stack (`ip_addr_ismulticast`, `ip_addr_isany`, `ip_addr_cmp` /
their uIP equivalents), which we take as function parameters. -/

/-- `coap_address_t` of the LwIP/Contiki builds: a port and a stack
address of opaque type `ip`. -/
structure CoapAddress (ip : Type) where
  port : Nat
  addr : ip

/-- `coap_is_mcast` (embedded build): `return a && _coap_is_mcast_impl(a);`.
The `&&` short-circuits, so a `NULL` argument yields `0` without any
dereference or assertion. -/
def coap_is_mcast (ip_addr_ismulticast : ip → Bool)
    (a : Option (CoapAddress ip)) : Nat :=
  match a with
  | none => 0
  | some x => if ip_addr_ismulticast x.addr then 1 else 0

/-- `coap_address_isany` (embedded build): `assert(a)` then the
stack-level wildcard test. -/
def coap_address_isany (ip_addr_isany : ip → Bool)
    (a : Option (CoapAddress ip)) : LibCoap.CResult Nat :=
  match a with
  | none => .assertViolation
  | some x => .ok (if ip_addr_isany x.addr then 1 else 0)

/-- `coap_address_equals` (embedded build): `assert(a); assert(b);` then
port equality combined with the stack-level address comparison. -/
def coap_address_equals (ip_addr_cmp : ip → ip → Bool)
    (a b : Option (CoapAddress ip)) : LibCoap.CResult Nat :=
  match a, b with
  | some x, some y =>
      .ok (if x.port = y.port ∧ ip_addr_cmp x.addr y.addr then 1 else 0)
  | _, _ => .assertViolation

end LibCoap.Embedded

namespace LibCoap

/-- C8: copying an `AF_INET6` address preserves `size`, family, port,
address bytes and scope id, while the destination's `sin6_flowinfo` is
the zero left by the initial `memset` whatever the source's flowinfo was;
hence the copy is not a byte-for-byte identity (final conjunct: a source
with nonzero flowinfo is not reproduced verbatim). -/
theorem coap_address_copy_in6_spec :
    (∀ (sz port flow scope : Nat) (ab : List Nat),
      coap_address_copy ⟨sz, .sin6 port flow ab scope⟩ =
        ⟨sz, .sin6 port 0 ab scope⟩) ∧
    coap_address_copy ⟨28, .sin6 1 7 (List.replicate 16 3) 2⟩ ≠
      ⟨28, .sin6 1 7 (List.replicate 16 3) 2⟩ := by
  constructor
  · intro sz port flow scope ab
    rfl
  · decide

/-- C9: `_coap_address_isany_impl` classifies an `AF_INET` address as
wildcard exactly when `s_addr = INADDR_ANY`, an `AF_INET6` address
exactly when its bytes equal `in6addr_any`, and returns `0` for the
unix-domain view and for every other family; the exported
`coap_address_isany` agrees with the impl on non-`NULL` input. -/
theorem coap_address_isany_spec :
    (∀ (sz p a : Nat),
      (coap_address_isany_impl ⟨sz, .sin p a⟩ = 1 ↔ a = INADDR_ANY) ∧
      (a ≠ INADDR_ANY → coap_address_isany_impl ⟨sz, .sin p a⟩ = 0)) ∧
    (∀ (sz p f scope : Nat) (ab : List Nat),
      (coap_address_isany_impl ⟨sz, .sin6 p f ab scope⟩ = 1 ↔ ab = in6addr_any) ∧
      (ab ≠ in6addr_any → coap_address_isany_impl ⟨sz, .sin6 p f ab scope⟩ = 0)) ∧
    (∀ (sz : Nat) (path : List Nat),
      coap_address_isany_impl ⟨sz, .cun path⟩ = 0) ∧
    (∀ (sz f : Nat) (bs : List Nat),
      coap_address_isany_impl ⟨sz, .raw f bs⟩ = 0) ∧
    (∀ x : CoapAddress,
      coap_address_isany (some x) = .ok (coap_address_isany_impl x)) := by
  refine ⟨fun sz p a => ⟨?_, ?_⟩, fun sz p f scope ab => ⟨?_, ?_⟩,
    fun sz path => rfl, fun sz f bs => rfl, fun x => rfl⟩
  · simp [coap_address_isany_impl]
  · intro h; simp [coap_address_isany_impl, h]
  · simp [coap_address_isany_impl]
  · intro h; simp [coap_address_isany_impl, h]

/-- Witness for C9: evaluates the classifier on concrete wildcard and
non-wildcard addresses of each family. -/
theorem coap_address_isany_spec_witness :
    coap_address_isany_impl ⟨16, .sin 80 5⟩ = 0 ∧
    coap_address_isany_impl ⟨28, .sin6 80 0 (List.replicate 16 1) 0⟩ = 0 := by
  refine ⟨(coap_address_isany_spec.1 16 80 5).2 (by decide), ?_⟩
  exact (coap_address_isany_spec.2.1 28 80 0 0 (List.replicate 16 1)).2 (by decide)

/-- C10: on the LwIP/Contiki build `coap_is_mcast` tolerates a `NULL`
argument and returns `0` for it, whereas `coap_address_isany` and
`coap_address_equals` hit their `assert` on any `NULL` argument — so in
the embedded address interface only the multicast predicate accepts
`NULL`. -/
theorem embedded_null_handling_spec :
    ∀ (ip : Type) (mc isany : ip → Bool) (cmp : ip → ip → Bool)
      (x : Embedded.CoapAddress ip),
      Embedded.coap_is_mcast mc none = 0 ∧
      Embedded.coap_address_isany isany none = .assertViolation ∧
      Embedded.coap_address_equals cmp none (some x) = .assertViolation ∧
      Embedded.coap_address_equals cmp (some x) none = .assertViolation ∧
      Embedded.coap_address_equals cmp none none = .assertViolation ∧
      Embedded.coap_is_mcast mc (some x) =
        (if mc x.addr then 1 else 0) := by
  intro ip mc isany cmp x
  exact ⟨rfl, rfl, rfl, rfl, rfl, rfl⟩

end LibCoap

namespace LibCoap.Codec

/-! ### Message codec

Modelled from the spec: the Message Codec and Option Table implementation
files are not part of the excerpt, so the wire codec of spec sections 4.1,
4.2 and 6 is embedded here from the spec's words: a fixed 4-byte header
(version, type, token-length nibble, code, big-endian message-id), the
token bytes, the options in delta + nibble-length encoding with 13/14
escapes, and an `0xFF` payload marker followed by the raw payload when a
payload is present. -/

/-- Error taxonomy of spec section 7 (the synchronous codec part). -/
inductive CoapError where
  | formatError
  | malformedMessage
  | criticalOptionUnrecognized
  deriving DecidableEq

/-- Message type: Confirmable, Non-confirmable, Acknowledgment, Reset. -/
inductive MsgType where
  | con
  | non
  | ack
  | rst
  deriving DecidableEq

/-- Wire value of the 2-bit type field. -/
def MsgType.toNat : MsgType → Nat
  | .con => 0
  | .non => 1
  | .ack => 2
  | .rst => 3

/-- Message type decoded from the 2-bit type field. -/
def msgTypeOfNat (n : Nat) : MsgType :=
  match n % 4 with
  | 0 => .con
  | 1 => .non
  | 2 => .ack
  | _ => .rst

/-- A message option: semantic number and opaque value bytes. -/
structure Opt where
  num : Nat
  val : List Nat
  deriving DecidableEq

/-- Ascending option order: compare by option number. -/
def Opt.le (a b : Opt) : Prop := a.num ≤ b.num

instance : DecidableRel Opt.le := fun a b => Nat.decLe a.num b.num

instance : IsTotal Opt Opt.le := ⟨fun a b => Nat.le_total a.num b.num⟩

instance : IsTrans Opt Opt.le := ⟨fun _ _ _ h h' => Nat.le_trans h h'⟩

/-- A protocol message (spec section 3). -/
structure Message where
  ty : MsgType
  code : Nat
  mid : Nat
  token : List Nat
  options : List Opt
  payload : List Nat
  deriving DecidableEq

/-- Nibble-escape encoding of an option delta or value length: values
below 13 fit the nibble; 13 signals one extension byte carrying the value
minus 13; 14 signals two extension bytes carrying the value minus 269,
big-endian. -/
def extEncode (n : Nat) : Nat × List Nat :=
  if n < 13 then (n, [])
  else if n < 269 then (13, [n - 13])
  else (14, [(n - 269) / 256, (n - 269) % 256])

/-- Decoding side of the nibble-escape scheme: reconstructs the value and
returns the remaining bytes; `none` on a truncated extension byte pattern
or on the reserved nibble 15. -/
def extDecode (nib : Nat) (bs : List Nat) : Option (Nat × List Nat) :=
  if nib < 13 then some (nib, bs)
  else if nib = 13 then
    match bs with
    | e :: rest => some (13 + e, rest)
    | [] => none
  else if nib = 14 then
    match bs with
    | e1 :: e2 :: rest => some (269 + 256 * e1 + e2, rest)
    | _ => none
  else none

/-- Serialize an option list (assumed in emission order) as delta-encoded
bytes, `prev` being the previous option number (0 before the first). -/
def encodeOptions (prev : Nat) : List Opt → List Nat
  | [] => []
  | o :: os =>
      (16 * (extEncode (o.num - prev)).1 + (extEncode o.val.length).1) ::
        ((extEncode (o.num - prev)).2 ++ (extEncode o.val.length).2 ++ o.val ++
          encodeOptions o.num os)

/-- Per-number value-length bounds and transport parameters used by
`encode` (spec sections 4.1 and 4.2: a min/max length bound per option
number, the transport MTU, and whether a fragmentation hook is
engaged). -/
structure EncodeCfg where
  mtu : Nat
  fragHook : Bool
  optMin : Nat → Nat
  optMax : Nat → Nat

/-- Whether an option's value length is within its per-number bounds. -/
def optInBounds (cfg : EncodeCfg) (o : Opt) : Bool :=
  decide (cfg.optMin o.num ≤ o.val.length) && decide (o.val.length ≤ cfg.optMax o.num)

/-- Serialize an option list, checking each option's value-length bounds
on the way; fails with `FormatError` at the first violating option. -/
def encodeOptionsChecked (cfg : EncodeCfg) (prev : Nat) :
    List Opt → Except CoapError (List Nat)
  | [] => .ok []
  | o :: os =>
      if optInBounds cfg o then
        match encodeOptionsChecked cfg o.num os with
        | .ok tailBytes =>
            .ok ((16 * (extEncode (o.num - prev)).1 + (extEncode o.val.length).1) ::
              ((extEncode (o.num - prev)).2 ++ (extEncode o.val.length).2 ++ o.val ++
                tailBytes))
        | .error e => .error e
      else .error .formatError

/-- Canonical emission order: options sorted ascending by number at
encode time, whatever the insertion order was (stable sort). -/
def sortOpts (os : List Opt) : List Opt := os.insertionSort Opt.le

/-- Payload section: nothing for an empty payload, else the `0xFF`
marker followed by the raw payload bytes. -/
def encodePayload : List Nat → List Nat
  | [] => []
  | p :: ps => 255 :: p :: ps

/-- The byte sequence `encode` produces when it succeeds: header byte
(version 1 in the top two bits, type, token-length nibble), code byte,
big-endian message-id, token, sorted delta-encoded options, payload
section. -/
def rawEncode (m : Message) : List Nat :=
  (64 + 16 * m.ty.toNat + m.token.length) :: m.code :: (m.mid / 256) ::
    (m.mid % 256) ::
    (m.token ++ encodeOptions 0 (sortOpts m.options) ++ encodePayload m.payload)

/-- `encode` (spec section 4.1 contract): fails with `FormatError` if the
token is longer than 8 bytes, if an option value violates its per-number
length bounds, or if the encoded message exceeds the transport MTU while
no fragmentation hook is engaged; otherwise returns the byte sequence. -/
def encode (cfg : EncodeCfg) (m : Message) : Except CoapError (List Nat) :=
  if 8 < m.token.length then .error .formatError
  else
    match encodeOptionsChecked cfg 0 (sortOpts m.options) with
    | .error e => .error e
    | .ok optBytes =>
        let bytes := (64 + 16 * m.ty.toNat + m.token.length) :: m.code ::
          (m.mid / 256) :: (m.mid % 256) ::
          (m.token ++ optBytes ++ encodePayload m.payload)
        if cfg.mtu < bytes.length && !cfg.fragHook then .error .formatError
        else .ok bytes

/-- Parse the option section: `prev` is the running option number, the
result is the option list and the payload.  Malformed cases: reserved
nibble 15 outside a full `0xFF` byte, truncated extension bytes, value
bytes running past the buffer, and a payload marker with zero trailing
payload.  The fuel argument only bounds recursion depth; callers pass
more fuel than bytes, and every step consumes at least one byte. -/
def decodeOptionsF (cfg_fuel : Nat) (prev : Nat) (bs : List Nat) :
    Except CoapError (List Opt × List Nat) :=
  match cfg_fuel, bs with
  | _, [] => .ok ([], [])
  | 0, _ :: _ => .error .malformedMessage
  | fuel + 1, b :: rest =>
      if b = 255 then
        match rest with
        | [] => .error .malformedMessage
        | p :: ps => .ok ([], p :: ps)
      else
        match extDecode (b / 16) rest with
        | none => .error .malformedMessage
        | some (d, rest2) =>
            match extDecode (b % 16) rest2 with
            | none => .error .malformedMessage
            | some (l, rest3) =>
                if rest3.length < l then .error .malformedMessage
                else
                  match decodeOptionsF fuel (prev + d) (rest3.drop l) with
                  | .error e => .error e
                  | .ok (os, pl) => .ok (⟨prev + d, rest3.take l⟩ :: os, pl)

/-- Structural decode (spec section 4.1 contract): fails with
`MalformedMessage` if the fixed header is short or the declared token
length exceeds the available bytes, and propagates option-section
failures; critical-option validation is layered on top in `decode`. -/
def decodeRaw (bs : List Nat) : Except CoapError Message :=
  match bs with
  | b0 :: b1 :: b2 :: b3 :: rest =>
      if rest.length < b0 % 16 then .error .malformedMessage
      else
        match decodeOptionsF (rest.length + 1) 0 (rest.drop (b0 % 16)) with
        | .error e => .error e
        | .ok (os, pl) =>
            .ok ⟨msgTypeOfNat (b0 / 16 % 4), b1, 256 * b2 + b3,
              rest.take (b0 % 16), os, pl⟩
  | _ => .error .malformedMessage

/-- Full decode: structural decode, then rejection of any unrecognized
critical (odd-numbered) option with the distinguished error; elective
(even-numbered) unrecognized options are silently retained. -/
def decode (recognized : Nat → Bool) (bs : List Nat) : Except CoapError Message :=
  match decodeRaw bs with
  | .error e => .error e
  | .ok m =>
      if m.options.any (fun o => decide (o.num % 2 = 1) && !recognized o.num) then
        .error .criticalOptionUnrecognized
      else .ok m

end LibCoap.Codec

namespace LibCoap.Codec

/-- The nibble emitted by `extEncode` is at most 14 (15 is reserved). -/
theorem extEncode_nib_le (n : Nat) : (extEncode n).1 ≤ 14 := by
  unfold extEncode
  split
  · dsimp only
    omega
  · split <;> dsimp only <;> omega

/-- The nibble-escape scheme round-trips for every value representable
in at most two extension bytes. -/
theorem extDecode_extEncode (n : Nat) (h : n ≤ 65804) (rest : List Nat) :
    extDecode (extEncode n).1 ((extEncode n).2 ++ rest) = some (n, rest) := by
  by_cases h1 : n < 13
  · have he : extEncode n = (n, []) := by unfold extEncode; rw [if_pos h1]
    rw [he]
    simp [extDecode, h1]
  · by_cases h2 : n < 269
    · have he : extEncode n = (13, [n - 13]) := by
        unfold extEncode; rw [if_neg h1, if_pos h2]
      rw [he]
      simp [extDecode]
      omega
    · have he : extEncode n = (14, [(n - 269) / 256, (n - 269) % 256]) := by
        unfold extEncode; rw [if_neg h1, if_neg h2]
      rw [he]
      simp [extDecode]
      omega

/-- Encodability of an option list from a running previous number:
numbers do not decrease and each delta and value length fits the
two-extension-byte ceiling. -/
def EncOK : Nat → List Opt → Prop
  | _, [] => True
  | prev, o :: os =>
      prev ≤ o.num ∧ o.num - prev ≤ 65804 ∧ o.val.length ≤ 65804 ∧ EncOK o.num os

/-- Round-trip of the option section: decoding the serialized options
followed by the payload section recovers the options and the payload. -/
theorem decodeOptionsF_encode (os : List Opt) : ∀ (prev fuel : Nat) (pl : List Nat),
    EncOK prev os →
    (encodeOptions prev os ++ encodePayload pl).length < fuel →
    decodeOptionsF fuel prev (encodeOptions prev os ++ encodePayload pl) =
      .ok (os, pl) := by
  induction os with
  | nil =>
    intro prev fuel pl _ hf
    match pl with
    | [] => simp [encodeOptions, encodePayload, decodeOptionsF]
    | p :: ps =>
      simp only [encodeOptions, encodePayload, List.nil_append] at hf ⊢
      match fuel with
      | 0 => omega
      | f + 1 => simp [decodeOptionsF]
  | cons o os ih =>
    intro prev fuel pl hok hf
    obtain ⟨onum, oval⟩ := o
    obtain ⟨hpn, hd, hl, hok'⟩ := hok
    simp only at hpn hd hl hok'
    simp only [encodeOptions, List.cons_append, List.append_assoc] at hf ⊢
    match fuel with
    | 0 => simp at hf
    | f + 1 =>
      have hdn := extEncode_nib_le (onum - prev)
      have hln := extEncode_nib_le oval.length
      have hne : ¬(16 * (extEncode (onum - prev)).1 + (extEncode oval.length).1 = 255) := by
        omega
      have h16 : (16 * (extEncode (onum - prev)).1 + (extEncode oval.length).1) / 16 =
          (extEncode (onum - prev)).1 := by omega
      have h15 : (16 * (extEncode (onum - prev)).1 + (extEncode oval.length).1) % 16 =
          (extEncode oval.length).1 := by omega
      simp only [decodeOptionsF, if_neg hne, h16, h15,
        extDecode_extEncode (onum - prev) hd,
        extDecode_extEncode oval.length hl]
      have hlen : ¬((oval ++ (encodeOptions onum os ++ encodePayload pl)).length <
          oval.length) := by
        simp
      rw [if_neg hlen]
      have htake : (oval ++ (encodeOptions onum os ++ encodePayload pl)).take
          oval.length = oval := List.take_left _ _
      have hdrop : (oval ++ (encodeOptions onum os ++ encodePayload pl)).drop
          oval.length = encodeOptions onum os ++ encodePayload pl := List.drop_left _ _
      rw [htake, hdrop]
      have hprev : prev + (onum - prev) = onum := by omega
      rw [hprev]
      have hf' : (encodeOptions onum os ++ encodePayload pl).length < f := by
        simp only [List.length_cons, List.length_append] at hf
        simp only [List.length_append]
        omega
      rw [ih onum f pl hok' hf']

end LibCoap.Codec

namespace LibCoap.Codec

/-- The checked option serializer either succeeds with exactly the bytes
of the unchecked serializer (when every option is within its bounds) or
fails with `FormatError` (when some option violates them). -/
theorem encodeOptionsChecked_dichotomy (cfg : EncodeCfg) (os : List Opt) :
    ∀ prev : Nat,
    (encodeOptionsChecked cfg prev os = .ok (encodeOptions prev os) ∧
      ∀ o ∈ os, optInBounds cfg o = true) ∨
    (encodeOptionsChecked cfg prev os = .error .formatError ∧
      ∃ o ∈ os, optInBounds cfg o = false) := by
  induction os with
  | nil =>
    intro prev
    left
    exact ⟨rfl, by simp⟩
  | cons o os ih =>
    intro prev
    by_cases hb : optInBounds cfg o = true
    · rcases ih o.num with ⟨hok, hall⟩ | ⟨herr, w, hw, hwb⟩
      · left
        constructor
        · simp only [encodeOptionsChecked, if_pos hb, hok, encodeOptions]
        · intro x hx
          rw [List.mem_cons] at hx
          rcases hx with rfl | hx
          · exact hb
          · exact hall x hx
      · right
        constructor
        · simp only [encodeOptionsChecked, if_pos hb, herr]
        · exact ⟨w, List.mem_cons_of_mem _ hw, hwb⟩
    · right
      constructor
      · simp only [encodeOptionsChecked, if_neg hb]
      · exact ⟨o, List.mem_cons_self o os, by simpa using hb⟩

/-- A sorted option list with 16-bit numbers and bounded value lengths is
encodable from any starting number below its head. -/
theorem encOK_of_sorted : ∀ (os : List Opt) (prev : Nat),
    List.Sorted Opt.le os →
    (∀ o ∈ os, o.num ≤ 65535 ∧ o.val.length ≤ 65804) →
    (∀ o ∈ os, prev ≤ o.num) →
    EncOK prev os := by
  intro os
  induction os with
  | nil => intro prev _ _ _; trivial
  | cons o os ih =>
    intro prev hs hb hp
    rw [List.sorted_cons] at hs
    refine ⟨hp o (List.mem_cons_self o os), ?_, ?_, ?_⟩
    · have := (hb o (List.mem_cons_self o os)).1
      omega
    · exact (hb o (List.mem_cons_self o os)).2
    · exact ih o.num hs.2 (fun x hx => hb x (List.mem_cons_of_mem _ hx))
        (fun x hx => hs.1 x hx)

/-- Option numbers of a successfully decoded option section, read from a
running previous number: the list never decreases. -/
def OptsGE : Nat → List Opt → Prop
  | _, [] => True
  | prev, o :: os => prev ≤ o.num ∧ OptsGE o.num os

/-- From a non-decreasing run, every member is at least the start. -/
theorem optsGE_mem : ∀ (os : List Opt) (prev : Nat), OptsGE prev os →
    ∀ o ∈ os, prev ≤ o.num := by
  intro os
  induction os with
  | nil => intro prev _ o ho; cases ho
  | cons x os ih =>
    intro prev h o ho
    rw [List.mem_cons] at ho
    rcases ho with rfl | ho
    · exact h.1
    · exact Nat.le_trans h.1 (ih x.num h.2 o ho)

/-- A non-decreasing run is sorted in the canonical option order. -/
theorem optsGE_sorted : ∀ (os : List Opt) (prev : Nat), OptsGE prev os →
    List.Sorted Opt.le os := by
  intro os
  induction os with
  | nil => intro _ _; exact List.sorted_nil
  | cons x os ih =>
    intro prev h
    rw [List.sorted_cons]
    exact ⟨fun b hb => optsGE_mem os x.num h.2 b hb, ih x.num h.2⟩

/-- Whatever the option section decodes to, the option numbers never
decrease: descending order is unrepresentable since wire deltas are
non-negative. -/
theorem decodeOptionsF_ge : ∀ (fuel prev : Nat) (bs : List Nat) (os : List Opt)
    (pl : List Nat), decodeOptionsF fuel prev bs = .ok (os, pl) → OptsGE prev os := by
  intro fuel
  induction fuel with
  | zero =>
    intro prev bs os pl h
    match bs with
    | [] =>
      simp only [decodeOptionsF] at h
      cases h
      trivial
    | b :: rest => simp [decodeOptionsF] at h
  | succ f ih =>
    intro prev bs os pl h
    match bs with
    | [] =>
      simp only [decodeOptionsF] at h
      cases h
      trivial
    | b :: rest =>
      simp only [decodeOptionsF] at h
      split at h
      · split at h
        · cases h
        · cases h
          trivial
      · split at h
        · cases h
        · split at h
          · cases h
          · split at h
            · cases h
            · split at h
              · cases h
              · rename_i d rest2 l rest3 hlt res hres
                cases h
                exact ⟨Nat.le_add_right _ _, ih _ _ _ _ hres⟩

end LibCoap.Codec

namespace LibCoap.Codec

/-- The 2-bit type field round-trips through the header. -/
theorem msgTypeOfNat_toNat (t : MsgType) : msgTypeOfNat t.toNat = t := by
  cases t <;> rfl

/-- Structural decode inverts `rawEncode` on any message with a short
enough token and sorted, representable options. -/
theorem decodeRaw_rawEncode (m : Message)
    (htok : m.token.length ≤ 8)
    (hsorted : List.Sorted Opt.le m.options)
    (hrep : ∀ o ∈ m.options, o.num ≤ 65535 ∧ o.val.length ≤ 65804) :
    decodeRaw (rawEncode m) = .ok m := by
  have hse : sortOpts m.options = m.options := hsorted.insertionSort_eq
  have hty : m.ty.toNat ≤ 3 := by cases m.ty <;> simp [MsgType.toNat]
  have henc : EncOK 0 (sortOpts m.options) := by
    rw [hse]
    exact encOK_of_sorted _ 0 hsorted hrep (fun _ _ => Nat.zero_le _)
  simp only [rawEncode, decodeRaw, List.append_assoc]
  have h0 : (64 + 16 * m.ty.toNat + m.token.length) % 16 = m.token.length := by
    omega
  rw [h0]
  have hnl : ¬((m.token ++ (encodeOptions 0 (sortOpts m.options) ++
      encodePayload m.payload)).length < m.token.length) := by
    simp [List.length_append]
  rw [if_neg hnl]
  rw [List.drop_left, List.take_left]
  have hf : (encodeOptions 0 (sortOpts m.options) ++ encodePayload m.payload).length <
      (m.token ++ (encodeOptions 0 (sortOpts m.options) ++
        encodePayload m.payload)).length + 1 := by
    simp only [List.length_append]
    omega
  rw [decodeOptionsF_encode (sortOpts m.options) 0 _ m.payload henc hf]
  have h1 : (64 + 16 * m.ty.toNat + m.token.length) / 16 % 4 = m.ty.toNat := by
    omega
  rw [h1, msgTypeOfNat_toNat]
  have h2 : 256 * (m.mid / 256) + m.mid % 256 = m.mid := by omega
  rw [h2, hse]

/-- Wellformedness of the configured per-number bounds: no configured
maximum exceeds what two extension bytes can express on the wire. -/
def BoundsWF (cfg : EncodeCfg) : Prop := ∀ n, cfg.optMax n ≤ 65535

/-- A valid message within the claim's length/option bounds: token at
most 8 bytes, every option within its per-number value-length bounds,
options stored in canonical ascending order with 16-bit numbers (the
section-3 invariant), every critical (odd-numbered) option recognized
(decode rejects unrecognized critical options by contract), and 8-bit
code / 16-bit message-id. -/
def ValidMessage (cfg : EncodeCfg) (recognized : Nat → Bool) (m : Message) : Prop :=
  m.token.length ≤ 8 ∧
  (∀ o ∈ m.options, optInBounds cfg o = true) ∧
  List.Sorted Opt.le m.options ∧
  (∀ o ∈ m.options, o.num ≤ 65535) ∧
  (∀ o ∈ m.options, o.num % 2 = 1 → recognized o.num = true) ∧
  m.code < 256 ∧ m.mid < 65536

end LibCoap.Codec

namespace LibCoap.Codec

/-- C1: for every valid message whose token is at most 8 bytes, whose
option values are within their per-number length bounds, and whose
encoded size is within the transport MTU (or a fragmentation hook is
engaged), encoding succeeds and decoding the produced byte sequence
yields the message back. -/
theorem encode_decode_roundTrip (cfg : EncodeCfg) (recognized : Nat → Bool)
    (m : Message) (hbw : BoundsWF cfg) (hv : ValidMessage cfg recognized m)
    (hmtu : (rawEncode m).length ≤ cfg.mtu ∨ cfg.fragHook = true) :
    encode cfg m = .ok (rawEncode m) ∧ decode recognized (rawEncode m) = .ok m := by
  obtain ⟨htok, hb, hs, hn, hcrit, _, _⟩ := hv
  have hrep : ∀ o ∈ m.options, o.num ≤ 65535 ∧ o.val.length ≤ 65804 := by
    intro o ho
    refine ⟨hn o ho, ?_⟩
    have hbo := hb o ho
    simp only [optInBounds, Bool.and_eq_true, decide_eq_true_eq] at hbo
    have := hbw o.num
    omega
  have hraw := decodeRaw_rawEncode m htok hs hrep
  constructor
  · unfold encode
    rw [if_neg (by omega : ¬8 < m.token.length)]
    rcases encodeOptionsChecked_dichotomy cfg (sortOpts m.options) 0 with
      ⟨hok, _⟩ | ⟨_, w, hw, hwb⟩
    · rw [hok]
      simp only [rawEncode] at hmtu ⊢
      rcases hmtu with hle | hfrag
      · rw [if_neg (by simp only [Bool.and_eq_true, decide_eq_true_eq]; omega)]
      · rw [if_neg (by simp [hfrag])]
    · have hmem : w ∈ m.options :=
        (List.Perm.mem_iff (List.perm_insertionSort Opt.le m.options)).1 hw
      rw [hb w hmem] at hwb
      cases hwb
  · have hany : m.options.any
        (fun o => decide (o.num % 2 = 1) && !recognized o.num) = false := by
      rw [List.any_eq_false]
      intro o ho
      by_cases hodd : o.num % 2 = 1
      · simp [hodd, hcrit o ho hodd]
      · simp [hodd]
    unfold decode
    rw [hraw]
    simp only [hany, Bool.false_eq_true, if_false]

/-- Witness for C1: the spec's section-8 scenario — a Confirmable GET
(code 1) with token `[0x37]`, message-id `0x1234` and a single option
(11, "temp") — encodes and decodes back to itself. -/
theorem encode_decode_roundTrip_witness :
    encode ⟨100, false, fun _ => 0, fun _ => 100⟩
        ⟨.con, 1, 4660, [55], [⟨11, [116, 101, 109, 112]⟩], []⟩ =
      .ok (rawEncode ⟨.con, 1, 4660, [55], [⟨11, [116, 101, 109, 112]⟩], []⟩) ∧
    decode (fun _ => true)
        (rawEncode ⟨.con, 1, 4660, [55], [⟨11, [116, 101, 109, 112]⟩], []⟩) =
      .ok ⟨.con, 1, 4660, [55], [⟨11, [116, 101, 109, 112]⟩], []⟩ :=
  encode_decode_roundTrip ⟨100, false, fun _ => 0, fun _ => 100⟩ (fun _ => true)
    ⟨.con, 1, 4660, [55], [⟨11, [116, 101, 109, 112]⟩], []⟩
    (by intro n; show (100 : Nat) ≤ 65535; decide)
    ⟨by decide, by decide, by decide, by decide, by decide, by decide, by decide⟩
    (Or.inl (by decide))

end LibCoap.Codec

namespace LibCoap.Codec

/-- C6: `encode` fails — always with `FormatError` — exactly when the
token is longer than 8 bytes, or some option value violates its
per-number length bounds, or the encoded byte sequence exceeds the
transport MTU while no fragmentation hook is engaged; in every other
case it returns the byte sequence `rawEncode m`. -/
theorem encode_fails_iff (cfg : EncodeCfg) (m : Message) :
    (encode cfg m = .error .formatError ↔
      (8 < m.token.length ∨ (∃ o ∈ m.options, optInBounds cfg o = false) ∨
        (cfg.mtu < (rawEncode m).length ∧ cfg.fragHook = false))) ∧
    (encode cfg m = .error .formatError ∨ encode cfg m = .ok (rawEncode m)) := by
  by_cases h8 : 8 < m.token.length
  · have he : encode cfg m = .error .formatError := by
      unfold encode
      rw [if_pos h8]
    rw [he]
    exact ⟨⟨fun _ => Or.inl h8, fun _ => rfl⟩, Or.inl rfl⟩
  · rcases encodeOptionsChecked_dichotomy cfg (sortOpts m.options) 0 with
      ⟨hok, hall⟩ | ⟨herr, w, hw, hwb⟩
    · have hallm : ∀ o ∈ m.options, optInBounds cfg o = true := by
        intro o ho
        exact hall o ((List.Perm.mem_iff (List.perm_insertionSort Opt.le m.options)).2 ho)
      have hstep : encode cfg m =
          if (decide (cfg.mtu < (rawEncode m).length) && !cfg.fragHook) = true then
            .error .formatError
          else .ok (rawEncode m) := by
        unfold encode
        rw [if_neg h8, hok]
        rfl
      by_cases hc : cfg.mtu < (rawEncode m).length ∧ cfg.fragHook = false
      · have he : encode cfg m = .error .formatError := by
          rw [hstep]
          rw [if_pos (by simp only [Bool.and_eq_true, decide_eq_true_eq,
                           Bool.not_eq_true']
                         exact hc)]
        rw [he]
        exact ⟨⟨fun _ => Or.inr (Or.inr hc), fun _ => rfl⟩, Or.inl rfl⟩
      · have he : encode cfg m = .ok (rawEncode m) := by
          rw [hstep]
          rw [if_neg (by simp only [Bool.and_eq_true, decide_eq_true_eq,
                           Bool.not_eq_true']
                         exact hc)]
        rw [he]
        refine ⟨⟨(fun hcontra => by cases hcontra), fun hdisj => ?_⟩, Or.inr rfl⟩
        rcases hdisj with h | ⟨o, ho, hob⟩ | h
        · exact absurd h h8
        · rw [hallm o ho] at hob
          cases hob
        · exact absurd h hc
    · have hmem : w ∈ m.options :=
        (List.Perm.mem_iff (List.perm_insertionSort Opt.le m.options)).1 hw
      have he : encode cfg m = .error .formatError := by
        unfold encode
        rw [if_neg h8, herr]
      rw [he]
      exact ⟨⟨fun _ => Or.inr (Or.inl ⟨w, hmem, hwb⟩), fun _ => rfl⟩, Or.inl rfl⟩

/-- C7: if a byte sequence structurally decodes to a message containing
an unrecognized critical (odd-numbered) option, full decode rejects the
whole message with the distinguished `CriticalOptionUnrecognized` error;
if every critical option is recognized, the message is accepted with all
its options — unrecognized elective (even-numbered) options included —
silently retained. -/
theorem decode_critical_option (recognized : Nat → Bool) (bs : List Nat)
    (m : Message) (h : decodeRaw bs = .ok m) :
    ((∃ o ∈ m.options, o.num % 2 = 1 ∧ recognized o.num = false) →
      decode recognized bs = .error .criticalOptionUnrecognized) ∧
    ((∀ o ∈ m.options, o.num % 2 = 1 → recognized o.num = true) →
      decode recognized bs = .ok m) := by
  constructor
  · intro ⟨o, ho, hodd, hunrec⟩
    have hany : m.options.any
        (fun o => decide (o.num % 2 = 1) && !recognized o.num) = true := by
      rw [List.any_eq_true]
      exact ⟨o, ho, by simp [hodd, hunrec]⟩
    unfold decode
    rw [h]
    simp only [hany, if_true]
  · intro hall
    have hany : m.options.any
        (fun o => decide (o.num % 2 = 1) && !recognized o.num) = false := by
      rw [List.any_eq_false]
      intro o ho
      by_cases hodd : o.num % 2 = 1
      · simp [hodd, hall o ho hodd]
      · simp [hodd]
    unfold decode
    rw [h]
    simp only [hany, Bool.false_eq_true, if_false]

/-- Witness for C7: a message with the single unrecognized critical
option 9 is rejected with the distinguished error, and the same bytes
with option 10 (elective) are accepted with the option retained. -/
theorem decode_critical_option_witness :
    decode (fun _ => false) [64, 1, 0, 0, 145, 97] =
      .error .criticalOptionUnrecognized ∧
    decode (fun _ => false) [64, 1, 0, 0, 161, 97] =
      .ok ⟨.con, 1, 0, [], [⟨10, [97]⟩], []⟩ := by
  constructor
  · exact (decode_critical_option (fun _ => false) [64, 1, 0, 0, 145, 97]
      ⟨.con, 1, 0, [], [⟨9, [97]⟩], []⟩ rfl).1
      ⟨⟨9, [97]⟩, by decide, by decide, by decide⟩
  · exact (decode_critical_option (fun _ => false) [64, 1, 0, 0, 161, 97]
      ⟨.con, 1, 0, [], [⟨10, [97]⟩], []⟩ rfl).2
      (by decide)

end LibCoap.Codec

namespace LibCoap.Codec

/-- C2 (amended): encode always emits options in canonical ascending
(non-decreasing) numeric order regardless of insertion order — equal
numbers are adjacent since an option number may repeat — and every byte
sequence that decode accepts has its options in that canonical order:
descending order is unrepresentable on the wire, so no input with
descending options is ever accepted. -/
theorem option_order (recognized : Nat → Bool) :
    (∀ os : List Opt, List.Sorted Opt.le (sortOpts os)) ∧
    (∀ (bs : List Nat) (m : Message), decode recognized bs = .ok m →
      List.Sorted Opt.le m.options) := by
  constructor
  · intro os
    exact List.sorted_insertionSort Opt.le os
  · intro bs m h
    unfold decode at h
    rcases hdr : decodeRaw bs with e | m'
    · rw [hdr] at h
      simp at h
    · rw [hdr] at h
      simp only at h
      split at h
      · cases h
      · cases h
        unfold decodeRaw at hdr
        split at hdr
        · split at hdr
          · cases hdr
          · split at hdr
            · cases hdr
            · rename_i os pl hopts
              cases hdr
              exact optsGE_sorted os 0 (decodeOptionsF_ge _ 0 _ os pl hopts)
        · cases hdr

/-- Witness for C2's decode direction: the concrete bytes of a message
with repeated option number 11 decode successfully, and the decoded
option list is sorted in the canonical order. -/
theorem option_order_witness :
    List.Sorted Opt.le [(⟨11, [97]⟩ : Opt), ⟨11, [98]⟩] :=
  (option_order (fun _ => true)).2 [64, 1, 0, 0, 177, 97, 1, 98]
    ⟨.con, 1, 0, [], [⟨11, [97]⟩, ⟨11, [98]⟩], []⟩ rfl

/-- Counterexample to C2 as stated (with "strictly ascending" read
strictly): option numbers may repeat, so encode's canonical emission
order for two options with number 11 is `[11, 11]` — not strictly
ascending — and decode accepts the corresponding byte sequence instead
of rejecting it as out of canonical order. -/
theorem option_order_strict_counterexample :
    sortOpts [⟨11, [97]⟩, ⟨11, [98]⟩] = [⟨11, [97]⟩, ⟨11, [98]⟩] ∧
    ¬ List.Sorted (fun a b : Opt => a.num < b.num) [⟨11, [97]⟩, ⟨11, [98]⟩] ∧
    decode (fun _ => true) [64, 1, 0, 0, 177, 97, 1, 98] =
      .ok ⟨.con, 1, 0, [], [⟨11, [97]⟩, ⟨11, [98]⟩], []⟩ := by
  refine ⟨by decide, by decide, rfl⟩

end LibCoap.Codec

namespace LibCoap.Reliability

/-! ### Reliability tracker

Modelled from the spec: the Reliability Tracker implementation file is
not part of the excerpt, so the per-entry state machine of spec section
4.3 is embedded here from the spec's words: `Sent` with a retransmit
budget, timeout and next deadline; a timer fire either retransmits
(doubling the timeout up to the configured ceiling and advancing the
deadline) or, with retries exhausted, transitions to `Failed` and
reports a single delivery-failure event.  Randomized jitter is applied
once to the initial timeout (the `ACK_RANDOM_FACTOR` convention), so
`initialTimeout` below is the already-jittered value. -/

/-- Configuration inputs of spec section 4.3: initial (jittered)
timeout, backoff multiplier, backoff ceiling, maximum number of
retransmissions. -/
structure RelConfig where
  initialTimeout : Nat
  backoff : Nat
  ceiling : Nat
  maxRetransmit : Nat
  deriving DecidableEq

/-- Per-entry state: `sent` carries the remaining retransmissions, the
current timeout and the next deadline; `completed` and `failed` are the
terminal outcomes. -/
inductive RelState where
  | sent (remaining : Nat) (timeout : Nat) (deadline : Nat)
  | completed
  | failed
  deriving DecidableEq

/-- Events reported upward by the tracker. -/
inductive RelEvent where
  | transmit (time : Nat)
  | deliveryFailed
  deriving DecidableEq

/-- Timer fire: with retries remaining, retransmit at the deadline and
double the timeout up to the ceiling; with retries exhausted, fail and
report the delivery failure; terminal states have no transitions. -/
def relTimerFire (cfg : RelConfig) : RelState → RelState × List RelEvent
  | .sent (r + 1) timeout deadline =>
      (.sent r (min (cfg.backoff * timeout) cfg.ceiling)
        (deadline + min (cfg.backoff * timeout) cfg.ceiling),
       [.transmit deadline])
  | .sent 0 _ _ => (.failed, [.deliveryFailed])
  | .completed => (.completed, [])
  | .failed => (.failed, [])

/-- Fire the timer `n` times in sequence, collecting all events. -/
def fireAll (cfg : RelConfig) : Nat → RelState → List RelEvent
  | 0, _ => []
  | n + 1, s => (relTimerFire cfg s).2 ++ fireAll cfg n (relTimerFire cfg s).1

/-- Entry created on send of a confirmable message: full retransmit
budget, initial timeout, first deadline one timeout after the send. -/
def initialState (cfg : RelConfig) : RelState :=
  .sent cfg.maxRetransmit cfg.initialTimeout cfg.initialTimeout

/-- The event trace of a confirmable message sent at time 0 that is
never acknowledged, with the timer fired `n` times. -/
def noAckTrace (cfg : RelConfig) (n : Nat) : List RelEvent :=
  .transmit 0 :: fireAll cfg n (initialState cfg)

/-- Closed form of the retransmission times from a previous transmit
time and a current timeout. -/
def timesSeq (cfg : RelConfig) : Nat → Nat → Nat → List Nat
  | 0, _, _ => []
  | r + 1, prev, timeout =>
      (prev + timeout) ::
        timesSeq cfg r (prev + timeout) (min (cfg.backoff * timeout) cfg.ceiling)

/-- Successive differences of a time list from a base time. -/
def gaps (base : Nat) : List Nat → List Nat
  | [] => []
  | t :: ts => (t - base) :: gaps t ts

/-- Closed form of the successive timeouts. -/
def tseq (cfg : RelConfig) : Nat → Nat → List Nat
  | 0, _ => []
  | r + 1, t => t :: tseq cfg r (min (cfg.backoff * t) cfg.ceiling)

/-- A failed entry never fires again: no events, no state change. -/
theorem fireAll_failed (cfg : RelConfig) : ∀ n, fireAll cfg n .failed = [] := by
  intro n
  induction n with
  | zero => rfl
  | succ n ih => simp only [fireAll, relTimerFire, List.nil_append, ih]

/-- Firing the timer at least `r + 1` times on a live entry yields
exactly the closed-form retransmissions followed by the single failure
event, and nothing afterwards. -/
theorem fireAll_sent (cfg : RelConfig) : ∀ (r n prev timeout : Nat), r + 1 ≤ n →
    fireAll cfg n (.sent r timeout (prev + timeout)) =
      (timesSeq cfg r prev timeout).map RelEvent.transmit ++
        [RelEvent.deliveryFailed] := by
  intro r
  induction r with
  | zero =>
    intro n prev timeout hn
    match n, hn with
    | m + 1, _ =>
      simp only [fireAll, relTimerFire, fireAll_failed, timesSeq, List.map_nil,
        List.nil_append, List.append_nil]
  | succ r ih =>
    intro n prev timeout hn
    match n, hn with
    | m + 1, _ =>
      have hm : r + 1 ≤ m := by omega
      simp only [fireAll, relTimerFire, timesSeq, List.map_cons]
      rw [show prev + timeout + min (cfg.backoff * timeout) cfg.ceiling =
        (prev + timeout) + min (cfg.backoff * timeout) cfg.ceiling from rfl]
      rw [ih m (prev + timeout) (min (cfg.backoff * timeout) cfg.ceiling) hm]
      simp

/-- The differences of the closed-form times are the closed-form
timeouts. -/
theorem gaps_timesSeq (cfg : RelConfig) : ∀ (r prev timeout : Nat),
    gaps prev (timesSeq cfg r prev timeout) = tseq cfg r timeout := by
  intro r
  induction r with
  | zero => intro prev timeout; rfl
  | succ r ih =>
    intro prev timeout
    simp only [timesSeq, gaps, tseq, ih]
    congr 1
    omega

/-- The closed-form timeouts never decrease while the backoff
multiplier is at least one and the current timeout is under the
ceiling. -/
theorem tseq_chain (cfg : RelConfig) (hb : 1 ≤ cfg.backoff) :
    ∀ (r t : Nat), t ≤ cfg.ceiling →
      List.Chain' (· ≤ ·) (tseq cfg r t) := by
  intro r
  induction r with
  | zero => intro t _; simp [tseq]
  | succ r ih =>
    intro t ht
    match r with
    | 0 => simp [tseq]
    | r' + 1 =>
      rw [tseq, tseq, List.chain'_cons]
      refine ⟨?_, ?_⟩
      · have h1 : t ≤ cfg.backoff * t := Nat.le_mul_of_pos_left t (by omega)
        exact le_min h1 ht
      · rw [← tseq]
        exact ih (min (cfg.backoff * t) cfg.ceiling) (min_le_right _ _)

/-- The closed-form retransmission times are as many as the budget. -/
theorem timesSeq_length (cfg : RelConfig) : ∀ (r prev timeout : Nat),
    (timesSeq cfg r prev timeout).length = r := by
  intro r
  induction r with
  | zero => intro prev timeout; rfl
  | succ r ih => intro prev timeout; simp [timesSeq, ih]

end LibCoap.Reliability

namespace LibCoap.Reliability

/-- Whether an event is a transmission. -/
def isTransmitEvent : RelEvent → Bool
  | .transmit _ => true
  | .deliveryFailed => false

/-- C3: a confirmable message with no acknowledgment is retransmitted
exactly `maxRetransmit` times (the trace is the original transmission at
time 0, the retransmissions `ts`, then the single `DeliveryFailed`
event and nothing after it, however many more times the timer engine
runs), and the intervals between successive transmissions never
decrease. -/
theorem noAck_retransmission (cfg : RelConfig) (n : Nat)
    (hb : 1 ≤ cfg.backoff) (hc : cfg.initialTimeout ≤ cfg.ceiling)
    (hn : cfg.maxRetransmit + 1 ≤ n) :
    ∃ ts : List Nat,
      noAckTrace cfg n =
        RelEvent.transmit 0 :: ts.map RelEvent.transmit ++
          [RelEvent.deliveryFailed] ∧
      ts.length = cfg.maxRetransmit ∧
      List.Chain' (· ≤ ·) (gaps 0 ts) := by
  refine ⟨timesSeq cfg cfg.maxRetransmit 0 cfg.initialTimeout, ?_, ?_, ?_⟩
  · unfold noAckTrace initialState
    rw [show (RelState.sent cfg.maxRetransmit cfg.initialTimeout
        cfg.initialTimeout) = .sent cfg.maxRetransmit cfg.initialTimeout
        (0 + cfg.initialTimeout) from by rw [Nat.zero_add]]
    rw [fireAll_sent cfg cfg.maxRetransmit n 0 cfg.initialTimeout hn]
    simp
  · exact timesSeq_length cfg _ 0 _
  · rw [gaps_timesSeq]
    exact tseq_chain cfg hb cfg.maxRetransmit cfg.initialTimeout hc

/-- Witness for C3: the spec's section-8 scenario — initial timeout 2,
backoff factor 2, 4 retransmissions, run for 5 timer fires — produces
transmissions at 0, 2, 6, 14, 30 and then the single failure event. -/
theorem noAck_retransmission_witness :
    ∃ ts : List Nat,
      noAckTrace ⟨2, 2, 60, 4⟩ 5 =
        RelEvent.transmit 0 :: ts.map RelEvent.transmit ++
          [RelEvent.deliveryFailed] ∧
      ts.length = 4 ∧
      List.Chain' (· ≤ ·) (gaps 0 ts) :=
  noAck_retransmission ⟨2, 2, 60, 4⟩ 5 (by decide) (by decide) (by decide)

end LibCoap.Reliability

namespace LibCoap.Reliability

/-- Inputs an exchange's reliability entry can receive: a timer fire, a
matching acknowledgment or response, a matching reset, or cancellation
because its session is closing. -/
inductive RelInput where
  | timerFire
  | ackReceived
  | resetReceived
  | cancel
  deriving DecidableEq

/-- One step of the per-exchange state machine (spec sections 4.3 and
5): a timer fire behaves as in `relTimerFire`; a matching ack or reset
completes the exchange (the application observes the response or the
reset); cancellation on session close transitions a pending entry to
`Failed` immediately, reporting the delivery failure; terminal states
admit no transitions. -/
def relStep (cfg : RelConfig) : RelState → RelInput → RelState × List RelEvent
  | s, .timerFire => relTimerFire cfg s
  | .sent _ _ _, .ackReceived => (.completed, [])
  | .sent _ _ _, .resetReceived => (.completed, [])
  | .sent _ _ _, .cancel => (.failed, [.deliveryFailed])
  | s, _ => (s, [])

/-- Whether an entry has reached a terminal outcome. -/
def isTerminal : RelState → Bool
  | .sent _ _ _ => false
  | .completed => true
  | .failed => true

/-- Run the machine over a list of inputs. -/
def runInputs (cfg : RelConfig) : RelState → List RelInput → RelState
  | s, [] => s
  | s, i :: is => runInputs cfg (relStep cfg s i).1 is

/-- Timer fires still needed to force a terminal outcome with no other
input. -/
def remainingFires : RelState → Nat
  | .sent r _ _ => r + 1
  | .completed => 0
  | .failed => 0

/-- Closing a session cancels every pending reliability entry of that
session at once (spec section 5, Cancellation), collecting the reported
events. -/
def closeSession (cfg : RelConfig) (entries : List RelState) :
    List RelState × List RelEvent :=
  (entries.map (fun s => (relStep cfg s .cancel).1),
   entries.flatMap (fun s => (relStep cfg s .cancel).2))

/-- C5: every opened exchange reaches exactly one terminal outcome and
none survives its session's closure: (1) terminal states are absorbing
— once `Completed` or `Failed`, no input changes the state or emits an
event, so the terminal outcome is unique; (2) any input sequence
containing at least `remainingFires` timer fires drives the entry to a
terminal state — no exchange stays pending under a live timer engine;
(3) cancellation moves a pending entry to `Failed` immediately,
reporting the delivery failure rather than swallowing it; (4) after
`closeSession` every entry of the session is terminal. -/
theorem exchange_lifecycle (cfg : RelConfig) :
    (∀ (s : RelState) (i : RelInput), isTerminal s = true →
      relStep cfg s i = (s, [])) ∧
    (∀ (s : RelState) (inputs : List RelInput),
      remainingFires s ≤ inputs.count RelInput.timerFire →
      isTerminal (runInputs cfg s inputs) = true) ∧
    (∀ s : RelState, isTerminal s = false →
      relStep cfg s .cancel = (.failed, [.deliveryFailed])) ∧
    (∀ entries : List RelState, ∀ s ∈ (closeSession cfg entries).1,
      isTerminal s = true) := by
  have habs : ∀ (s : RelState) (i : RelInput), isTerminal s = true →
      relStep cfg s i = (s, []) := by
    intro s i hs
    cases s with
    | sent r t d => simp [isTerminal] at hs
    | completed => cases i <;> rfl
    | failed => cases i <;> rfl
  refine ⟨habs, ?_, ?_, ?_⟩
  · intro s inputs
    induction inputs generalizing s with
    | nil =>
      intro h
      cases s with
      | sent r t d => simp [remainingFires] at h
      | completed => rfl
      | failed => rfl
    | cons i is ih =>
      intro h
      rw [runInputs]
      apply ih
      cases s with
      | completed =>
        rw [habs RelState.completed i rfl]
        simp [remainingFires]
      | failed =>
        rw [habs RelState.failed i rfl]
        simp [remainingFires]
      | sent r t d =>
        cases i with
        | timerFire =>
          cases r with
          | zero => simp [relStep, relTimerFire, remainingFires]
          | succ r' =>
            simp only [relStep, relTimerFire, remainingFires,
              List.count_cons] at h ⊢
            simp at h
            omega
        | ackReceived => simp [relStep, remainingFires]
        | resetReceived => simp [relStep, remainingFires]
        | cancel => simp [relStep, remainingFires]
  · intro s hs
    cases s with
    | sent r t d => rfl
    | completed => simp [isTerminal] at hs
    | failed => simp [isTerminal] at hs
  · intro entries s hs
    rw [closeSession] at hs
    simp only [List.mem_map] at hs
    obtain ⟨x, _, rfl⟩ := hs
    cases x with
    | sent r t d => rfl
    | completed => rfl
    | failed => rfl

/-- Witness for C5: a pending entry with budget 1 is driven terminal by
two timer fires, and closing a session with one pending and one
completed entry leaves both entries terminal. -/
theorem exchange_lifecycle_witness :
    isTerminal (runInputs ⟨2, 2, 60, 4⟩ (.sent 1 2 2)
      [.timerFire, .timerFire]) = true ∧
    relStep ⟨2, 2, 60, 4⟩ (.sent 1 2 2) .cancel =
      (.failed, [.deliveryFailed]) := by
  constructor
  · exact (exchange_lifecycle ⟨2, 2, 60, 4⟩).2.1 (.sent 1 2 2)
      [.timerFire, .timerFire] (by decide)
  · exact (exchange_lifecycle ⟨2, 2, 60, 4⟩).2.2.1 (.sent 1 2 2) (by decide)

end LibCoap.Reliability

namespace LibCoap.Dedup

/-! ### Deduplication

Modelled from the spec: the deduplication table implementation file is
not part of the excerpt, so spec section 4.3's deduplication paragraph
is embedded here from the spec's words: on receipt the tracker looks up
(peer, message-id) among the entries still inside the dedup window; a
hit means duplicate — a confirmable duplicate triggers a resend of the
previously recorded response if any, else a fresh acknowledgment,
without re-delivery to the application; a non-confirmable duplicate is
silently dropped; a miss records a fresh entry (aged entries being
purged) and delivers the request to the application. -/

/-- A deduplication entry: peer identity, message-id, last-seen time,
and the recorded response if one was produced. -/
structure DedupEntry where
  peer : Nat
  mid : Nat
  lastSeen : Nat
  response : Option LibCoap.Codec.Message
  deriving DecidableEq

/-- The deduplication table with its configured window. -/
structure DedupState where
  window : Nat
  entries : List DedupEntry
  deriving DecidableEq

/-- Events surfaced by inbound processing. -/
inductive DedupEvent where
  | appDeliver (peer mid : Nat)
  | resendResponse (m : LibCoap.Codec.Message)
  | sendAck (peer mid : Nat)
  deriving DecidableEq

/-- Whether an entry matches the key (peer, message-id) and is still
inside the window at time `now`. -/
def entryMatches (peer mid now window : Nat) (e : DedupEntry) : Bool :=
  e.peer == peer && e.mid == mid && decide (now - e.lastSeen ≤ window)

/-- Look up a live entry for (peer, message-id). -/
def dedupFind (st : DedupState) (peer mid now : Nat) : Option DedupEntry :=
  st.entries.find? (entryMatches peer mid now st.window)

/-- Purge entries that have aged out of the window. -/
def purgeAged (entries : List DedupEntry) (now window : Nat) : List DedupEntry :=
  entries.filter (fun e => decide (now - e.lastSeen ≤ window))

/-- Process one inbound (non-ack) message at time `now`. -/
def dedupReceive (st : DedupState) (peer mid : Nat) (isCon : Bool) (now : Nat) :
    DedupState × List DedupEvent :=
  match dedupFind st peer mid now with
  | some e =>
      if isCon then
        match e.response with
        | some r => (st, [.resendResponse r])
        | none => (st, [.sendAck peer mid])
      else (st, [])
  | none =>
      (⟨st.window, ⟨peer, mid, now, none⟩ :: purgeAged st.entries now st.window⟩,
       [.appDeliver peer mid])

/-- Record the response produced for (peer, message-id) on its entry. -/
def recordResponse (st : DedupState) (peer mid : Nat)
    (r : LibCoap.Codec.Message) : DedupState :=
  ⟨st.window, st.entries.map (fun e =>
    if e.peer == peer && e.mid == mid then ⟨e.peer, e.mid, e.lastSeen, some r⟩
    else e)⟩

/-- Whether an event is an application-visible request delivery. -/
def isAppDeliver : DedupEvent → Bool
  | .appDeliver _ _ => true
  | _ => false

/-- The two event lists produced by receiving the same (peer,
message-id) twice, with a response optionally recorded in between. -/
def dedupTwice (st : DedupState) (peer mid : Nat) (isCon : Bool)
    (t1 t2 : Nat) (respOpt : Option LibCoap.Codec.Message) :
    List DedupEvent × List DedupEvent :=
  (((dedupReceive st peer mid isCon t1).2),
   (dedupReceive
     (match respOpt with
      | none => (dedupReceive st peer mid isCon t1).1
      | some r => recordResponse (dedupReceive st peer mid isCon t1).1 peer mid r)
     peer mid isCon t2).2)

end LibCoap.Dedup


namespace LibCoap.Dedup

/-- Receiving with no live entry delivers to the application and
records a fresh entry. -/
theorem dedupReceive_fresh (st : DedupState) (peer mid : Nat) (isCon : Bool)
    (now : Nat) (hf : dedupFind st peer mid now = none) :
    dedupReceive st peer mid isCon now =
      (⟨st.window, ⟨peer, mid, now, none⟩ ::
        purgeAged st.entries now st.window⟩,
       [.appDeliver peer mid]) := by
  unfold dedupReceive
  rw [hf]

/-- Receiving with a live entry re-serves the duplicate without
delivering to the application. -/
theorem dedupReceive_dup (st : DedupState) (peer mid now : Nat) (isCon : Bool)
    (e : DedupEntry) (hf : dedupFind st peer mid now = some e) :
    dedupReceive st peer mid isCon now =
      if isCon then
        (match e.response with
         | some r => (st, [DedupEvent.resendResponse r])
         | none => (st, [DedupEvent.sendAck peer mid]))
      else (st, []) := by
  unfold dedupReceive
  rw [hf]

/-- C4: receiving the same message-id twice from the same peer within
the dedup window surfaces exactly one application-visible request
event: the first receipt delivers to the application; the duplicate
delivers nothing — a confirmable duplicate triggers a resend of the
previously recorded response if any, else a fresh acknowledgment, and a
non-confirmable duplicate is silently dropped. -/
theorem dedup_window_spec (st : DedupState) (peer mid : Nat) (isCon : Bool)
    (t1 t2 : Nat) (respOpt : Option LibCoap.Codec.Message)
    (hfresh : dedupFind st peer mid t1 = none)
    (hw : t2 - t1 ≤ st.window) :
    (dedupTwice st peer mid isCon t1 t2 respOpt).1 =
      [.appDeliver peer mid] ∧
    ((dedupTwice st peer mid isCon t1 t2 respOpt).2).countP isAppDeliver = 0 ∧
    (isCon = true → (dedupTwice st peer mid isCon t1 t2 respOpt).2 =
      (match respOpt with
       | some r => [.resendResponse r]
       | none => [.sendAck peer mid])) ∧
    (isCon = false → (dedupTwice st peer mid isCon t1 t2 respOpt).2 = []) ∧
    ((dedupTwice st peer mid isCon t1 t2 respOpt).1 ++
      (dedupTwice st peer mid isCon t1 t2 respOpt).2).countP isAppDeliver = 1 := by
  have hrecv1 := dedupReceive_fresh st peer mid isCon t1 hfresh
  rcases respOpt with _ | r
  · have hfind2 : dedupFind
        ⟨st.window, ⟨peer, mid, t1, none⟩ :: purgeAged st.entries t1 st.window⟩
        peer mid t2 = some ⟨peer, mid, t1, none⟩ := by
      unfold dedupFind
      apply List.find?_cons_of_pos
      simp [entryMatches, hw]
    have hrecv2 := dedupReceive_dup _ peer mid t2 isCon _ hfind2
    have htwice : dedupTwice st peer mid isCon t1 t2 none =
        ([.appDeliver peer mid], if isCon then [.sendAck peer mid] else []) := by
      unfold dedupTwice
      rw [hrecv1]
      simp only
      rw [hrecv2]
      cases isCon <;> rfl
    rw [htwice]
    cases isCon
    · refine ⟨rfl, rfl, (fun hc => by cases hc), fun _ => rfl, ?_⟩
      simp [List.countP_append, List.countP_cons, isAppDeliver]
    · refine ⟨rfl, by simp [List.countP_cons, isAppDeliver], fun _ => rfl,
        (fun hc => by cases hc), ?_⟩
      simp [List.countP_append, List.countP_cons, isAppDeliver]
  · have hrec : recordResponse
        ⟨st.window, ⟨peer, mid, t1, none⟩ :: purgeAged st.entries t1 st.window⟩
        peer mid r =
        ⟨st.window, ⟨peer, mid, t1, some r⟩ ::
          (purgeAged st.entries t1 st.window).map (fun e =>
            if e.peer == peer && e.mid == mid then
              ⟨e.peer, e.mid, e.lastSeen, some r⟩ else e)⟩ := by
      unfold recordResponse
      simp
    have hfind2 : dedupFind
        ⟨st.window, ⟨peer, mid, t1, some r⟩ ::
          (purgeAged st.entries t1 st.window).map (fun e =>
            if e.peer == peer && e.mid == mid then
              ⟨e.peer, e.mid, e.lastSeen, some r⟩ else e)⟩
        peer mid t2 = some ⟨peer, mid, t1, some r⟩ := by
      unfold dedupFind
      apply List.find?_cons_of_pos
      simp [entryMatches, hw]
    have hrecv2 := dedupReceive_dup _ peer mid t2 isCon _ hfind2
    have htwice : dedupTwice st peer mid isCon t1 t2 (some r) =
        ([.appDeliver peer mid],
         if isCon then [.resendResponse r] else []) := by
      unfold dedupTwice
      rw [hrecv1]
      simp only
      rw [hrec, hrecv2]
      cases isCon <;> rfl
    rw [htwice]
    cases isCon
    · refine ⟨rfl, rfl, (fun hc => by cases hc), fun _ => rfl, ?_⟩
      simp [List.countP_append, List.countP_cons, isAppDeliver]
    · refine ⟨rfl, by simp [List.countP_cons, isAppDeliver], fun _ => rfl,
        (fun hc => by cases hc), ?_⟩
      simp [List.countP_append, List.countP_cons, isAppDeliver]

/-- Witness for C4: from an empty table with window 100, the same
confirmable message-id received at times 0 and 50 yields one
application delivery then a fresh acknowledgment. -/
theorem dedup_window_spec_witness :
    (dedupTwice ⟨100, []⟩ 1 7 true 0 50 none).1 = [.appDeliver 1 7] ∧
    (dedupTwice ⟨100, []⟩ 1 7 true 0 50 none).2 = [.sendAck 1 7] := by
  have h := dedup_window_spec ⟨100, []⟩ 1 7 true 0 50 none rfl (by decide)
  exact ⟨h.1, h.2.2.1 rfl⟩

end LibCoap.Dedup
